import Mathlib

/-!
Verification of the Zernike-optics simulation core
(`随想/ZernikeOpticsSimulation/ZernikeOptics.py`).

The Python module is shallowly embedded below: numpy float arrays become
functions from indices to real numbers, complex arrays become functions into
the complex numbers, Python exceptions become `Option`/`Except` results, and
Python dictionaries become association lists.  Each definition mirrors the
source function of the same (or closely transliterated) name.
-/

/-! ## Index translation (source: nm_to_noll, nm_to_ansi) -/

/-- Source `nm_to_noll`: `j = (n * (n + 1)) // 2 + abs(m)` followed by the
four sign / `n % 4` adjustment rules.  The trailing `assert False` of the
source is unreachable (the four conditions are exhaustive); the final `else`
branch below coincides with the fourth rule. -/
def nm_to_noll (n m : ℤ) : ℤ :=
  if 0 < m ∧ (n % 4 = 0 ∨ n % 4 = 1) then n * (n + 1) / 2 + |m|
  else if m < 0 ∧ (n % 4 = 2 ∨ n % 4 = 3) then n * (n + 1) / 2 + |m|
  else if 0 ≤ m ∧ (n % 4 = 2 ∨ n % 4 = 3) then n * (n + 1) / 2 + |m| + 1
  else n * (n + 1) / 2 + |m| + 1

/-- Source `nm_to_ansi`: `(n * (n + 2) + m) // 2`.  (For every valid
descriptor the numerator is non-negative and even, so Lean's integer
division agrees with Python's floor division.) -/
def nm_to_ansi (n m : ℤ) : ℤ :=
  (n * (n + 2) + m) / 2

/-- Source `Zernike._nm_pairs`: the descriptors `(n, m)` for `n` in
`range(200)` and `m` in `range(-n, n + 1, 2)`, i.e. `m = -n + 2k` for
`k = 0 .. n`. -/
def nm_pairs : List (ℤ × ℤ) :=
  (List.range 200).flatMap fun (n : ℕ) =>
    (List.range (n + 1)).map fun (k : ℕ) => ((n : ℤ), -(n : ℤ) + 2 * (k : ℤ))

/-- The predicate cut out by the `_nm_pairs` enumeration. -/
def validNM (n m : ℤ) : Prop :=
  0 ≤ n ∧ n < 200 ∧ |m| ≤ n ∧ (n - m) % 2 = 0

instance (n m : ℤ) : Decidable (validNM n m) := by
  unfold validNM; infer_instance

/-- Source `Zernike._noll_to_nm`: the dictionary inverting `nm_to_noll` over
`_nm_pairs`.  Because `nm_to_noll` is injective on the enumeration (proved
below), the dictionary is well defined and lookup coincides with a first
match over the enumeration. -/
def noll_to_nm (j : ℤ) : Option (ℤ × ℤ) :=
  nm_pairs.find? fun p => nm_to_noll p.1 p.2 == j

/-- Source `Zernike._ansi_to_nm`: the dictionary inverting `nm_to_ansi`. -/
def ansi_to_nm (j : ℤ) : Option (ℤ × ℤ) :=
  nm_pairs.find? fun p => nm_to_ansi p.1 p.2 == j

theorem mem_nm_pairs {n m : ℤ} :
    (n, m) ∈ nm_pairs ↔ validNM n m := by
  unfold nm_pairs validNM
  constructor
  · intro h
    obtain ⟨a, ha, hmem⟩ := List.mem_flatMap.mp h
    obtain ⟨k, hk, hpq⟩ := List.mem_map.mp hmem
    have ha' : a < 200 := List.mem_range.mp ha
    have hk' : k < a + 1 := List.mem_range.mp hk
    injection hpq with h1 h2
    subst h1
    subst h2
    refine ⟨by positivity, by exact_mod_cast ha', ?_, by omega⟩
    rw [abs_le]
    constructor <;> omega
  · rintro ⟨h0, h200, habs, hpar⟩
    rw [abs_le] at habs
    obtain ⟨t, ht⟩ : ∃ t : ℤ, m + n = t + t := ⟨(m + n) / 2, by omega⟩
    have hmem1 : n.toNat ∈ List.range 200 := List.mem_range.mpr (by omega)
    have hmem2 : t.toNat ∈ List.range (n.toNat + 1) := List.mem_range.mpr (by omega)
    have hpair : ((↑n.toNat : ℤ), -(↑n.toNat : ℤ) + 2 * (↑t.toNat : ℤ)) = (n, m) := by
      rw [Prod.mk.injEq]
      constructor <;> omega
    exact List.mem_flatMap.mpr
      ⟨n.toNat, hmem1, List.mem_map.mpr ⟨t.toNat, hmem2, hpair⟩⟩

/-- The Noll base is an exact division: `2 * (n * (n + 1) / 2) = n * (n + 1)`. -/
theorem noll_base_exact (n : ℤ) : 2 * (n * (n + 1) / 2) = n * (n + 1) := by
  obtain ⟨k, hk⟩ := Int.even_mul_succ_self n
  rw [hk]
  omega

/-- Rows of the Noll table are separated: for `0 ≤ a < b` the base of row `b`
exceeds the top of row `a`. -/
theorem noll_base_step {a b : ℤ} (ha : 0 ≤ a) (hab : a < b) :
    a * (a + 1) / 2 + a + 1 ≤ b * (b + 1) / 2 := by
  have h1 := noll_base_exact a
  have h2 := noll_base_exact b
  have hb : a + 1 ≤ b := by omega
  have hnn : 0 ≤ (b - a - 1) * (b + a + 2) :=
    mul_nonneg (by omega) (by omega)
  nlinarith [h1, h2, hnn]

/-- Bounds for a Noll index within its row. -/
theorem nm_to_noll_bounds {n m : ℤ} (_h0 : 0 ≤ n) (habs : |m| ≤ n) :
    n * (n + 1) / 2 + 1 ≤ nm_to_noll n m ∧
      nm_to_noll n m ≤ n * (n + 1) / 2 + n + 1 := by
  unfold nm_to_noll
  rcases abs_cases m with ⟨hm, hm0⟩ | ⟨hm, hm0⟩ <;>
    rw [hm] at habs ⊢ <;>
    generalize n * (n + 1) / 2 = t <;>
    split_ifs <;> omega

/-- The map `nm_to_noll` is injective on valid descriptors (no 200 bound needed). -/
theorem nm_to_noll_inj {n1 m1 n2 m2 : ℤ}
    (h01 : 0 ≤ n1) (habs1 : |m1| ≤ n1) (hpar1 : (n1 - m1) % 2 = 0)
    (h02 : 0 ≤ n2) (habs2 : |m2| ≤ n2) (hpar2 : (n2 - m2) % 2 = 0)
    (heq : nm_to_noll n1 m1 = nm_to_noll n2 m2) :
    n1 = n2 ∧ m1 = m2 := by
  rcases lt_trichotomy n1 n2 with hlt | hEq | hgt
  · exfalso
    have hb1 := (nm_to_noll_bounds h01 habs1).2
    have hb2 := (nm_to_noll_bounds h02 habs2).1
    have hstep := noll_base_step h01 hlt
    omega
  · subst hEq
    refine ⟨rfl, ?_⟩
    unfold nm_to_noll at heq
    rw [abs_le] at habs1 habs2
    rcases abs_cases m1 with ⟨ha1, hs1⟩ | ⟨ha1, hs1⟩ <;>
      rcases abs_cases m2 with ⟨ha2, hs2⟩ | ⟨ha2, hs2⟩ <;>
      rw [ha1, ha2] at heq <;>
      generalize n1 * (n1 + 1) / 2 = t at heq <;>
      split_ifs at heq <;> omega
  · exfalso
    have hb1 := (nm_to_noll_bounds h01 habs1).1
    have hb2 := (nm_to_noll_bounds h02 habs2).2
    have hstep := noll_base_step h02 hgt
    omega

/-- The ANSI numerator is even on valid descriptors, so the division is
exact. -/
theorem ansi_base_exact {n m : ℤ} (hpar : (n - m) % 2 = 0) :
    2 * ((n * (n + 2) + m) / 2) = n * (n + 2) + m := by
  have hx : n * (n + 2) + m = n * n + 2 * n + m := by ring
  have hsq : n * n % 2 = n % 2 * (n % 2) % 2 := by
    rw [Int.mul_emod]
  have h2 : n % 2 = 0 ∨ n % 2 = 1 := Int.emod_two_eq n
  rcases h2 with h | h <;> rw [h] at hsq <;> omega

/-- The map `nm_to_ansi` is injective on valid descriptors. -/
theorem nm_to_ansi_inj {n1 m1 n2 m2 : ℤ}
    (h01 : 0 ≤ n1) (habs1 : |m1| ≤ n1) (hpar1 : (n1 - m1) % 2 = 0)
    (h02 : 0 ≤ n2) (habs2 : |m2| ≤ n2) (hpar2 : (n2 - m2) % 2 = 0)
    (heq : nm_to_ansi n1 m1 = nm_to_ansi n2 m2) :
    n1 = n2 ∧ m1 = m2 := by
  unfold nm_to_ansi at heq
  have he1 := ansi_base_exact hpar1
  have he2 := ansi_base_exact hpar2
  rw [abs_le] at habs1 habs2
  have hkey : n1 * (n1 + 2) + m1 = n2 * (n2 + 2) + m2 := by omega
  have hn : n1 = n2 := by
    rcases lt_trichotomy n1 n2 with hlt | hEq | hgt
    · exfalso
      have : 0 ≤ (n2 - n1 - 1) * (n2 + n1 + 2) :=
        mul_nonneg (by omega) (by omega)
      nlinarith [hkey, this]
    · exact hEq
    · exfalso
      have : 0 ≤ (n1 - n2 - 1) * (n1 + n2 + 2) :=
        mul_nonneg (by omega) (by omega)
      nlinarith [hkey, this]
  subst hn
  refine ⟨rfl, by nlinarith [hkey]⟩

/-- List search (`find?`) returns the designated element when the predicate
singles it out. -/
theorem find_unique_mem {α : Type} {l : List α} {pr : α → Bool} {p : α}
    (hp : p ∈ l) (hpr : pr p = true)
    (huniq : ∀ q ∈ l, pr q = true → q = p) :
    l.find? pr = some p := by
  induction l with
  | nil => cases hp
  | cons a l ih =>
      cases hb : pr a with
      | true =>
          have hap : a = p := huniq a (List.mem_cons_self a l) hb
          subst hap
          simp [List.find?, hb]
      | false =>
          have hpl : p ∈ l := by
            rcases List.mem_cons.mp hp with rfl | h
            · rw [hpr] at hb
              exact Bool.noConfusion hb
            · exact h
          have hrec : l.find? pr = some p :=
            ih hpl fun q hq hqr => huniq q (List.mem_cons_of_mem a hq) hqr
          simp [List.find?, hb, hrec]

/-- Claim C2: for every descriptor `(n, m)` with `0 <= n < 200`, `|m| <= n`
and `(n - m)` even, the Noll reverse lookup applied to `nm_to_noll n m`
returns exactly `(n, m)`, and the ANSI reverse lookup applied to
`nm_to_ansi n m` returns exactly `(n, m)`; both translations are injective
on this set, hence bijections onto their images. -/
theorem C2_index_translation_bijective :
    (∀ n m : ℤ, validNM n m →
      noll_to_nm (nm_to_noll n m) = some (n, m) ∧
      ansi_to_nm (nm_to_ansi n m) = some (n, m)) ∧
    (∀ n1 m1 n2 m2 : ℤ, validNM n1 m1 → validNM n2 m2 →
      nm_to_noll n1 m1 = nm_to_noll n2 m2 → n1 = n2 ∧ m1 = m2) ∧
    (∀ n1 m1 n2 m2 : ℤ, validNM n1 m1 → validNM n2 m2 →
      nm_to_ansi n1 m1 = nm_to_ansi n2 m2 → n1 = n2 ∧ m1 = m2) := by
  have hinjN : ∀ n1 m1 n2 m2 : ℤ, validNM n1 m1 → validNM n2 m2 →
      nm_to_noll n1 m1 = nm_to_noll n2 m2 → n1 = n2 ∧ m1 = m2 := by
    rintro n1 m1 n2 m2 ⟨a1, _, c1, d1⟩ ⟨a2, _, c2, d2⟩ h
    exact nm_to_noll_inj a1 c1 d1 a2 c2 d2 h
  have hinjA : ∀ n1 m1 n2 m2 : ℤ, validNM n1 m1 → validNM n2 m2 →
      nm_to_ansi n1 m1 = nm_to_ansi n2 m2 → n1 = n2 ∧ m1 = m2 := by
    rintro n1 m1 n2 m2 ⟨a1, _, c1, d1⟩ ⟨a2, _, c2, d2⟩ h
    exact nm_to_ansi_inj a1 c1 d1 a2 c2 d2 h
  refine ⟨?_, hinjN, hinjA⟩
  intro n m hv
  constructor
  · unfold noll_to_nm
    apply find_unique_mem (mem_nm_pairs.mpr hv)
    · simp
    · rintro ⟨q1, q2⟩ hq hpr
      have hvq := mem_nm_pairs.mp hq
      have heq : nm_to_noll q1 q2 = nm_to_noll n m := by simpa using hpr
      have hnm := hinjN q1 q2 n m hvq hv heq
      simp [hnm.1, hnm.2]
  · unfold ansi_to_nm
    apply find_unique_mem (mem_nm_pairs.mpr hv)
    · simp
    · rintro ⟨q1, q2⟩ hq hpr
      have hvq := mem_nm_pairs.mp hq
      have heq : nm_to_ansi q1 q2 = nm_to_ansi n m := by simpa using hpr
      have hnm := hinjA q1 q2 n m hvq hv heq
      simp [hnm.1, hnm.2]

/-- Witness for C2 at the defocus descriptor `(2, 0)`. -/
theorem C2_witness :
    validNM 2 0 ∧ noll_to_nm (nm_to_noll 2 0) = some (2, 0) ∧
      ansi_to_nm (nm_to_ansi 2 0) = some (2, 0) :=
  ⟨by decide, (C2_index_translation_bijective.1 2 0 (by decide)).1,
    (C2_index_translation_bijective.1 2 0 (by decide)).2⟩

/-! ## Zernike polynomial objects (source: class Zernike) -/

/-- Source `Zernike._ansi_names`. -/
def ansi_names : List String :=
  ["piston", "tilt", "tip", "oblique astigmatism", "defocus",
   "vertical astigmatism", "vertical trefoil", "vertical coma",
   "horizontal coma", "oblique trefoil", "oblique quadrafoil",
   "oblique secondary astigmatism", "primary spherical",
   "vertical secondary astigmatism", "vertical quadrafoil"]

/-- A constructed `Zernike` object.  The fields are exactly the attributes
set by `Zernike.__init__`; `_mutable` is the immutability latch used by
`Zernike.__setattr__`. -/
structure Zernike where
  n : ℤ
  m : ℤ
  index_noll : ℤ
  index_ansi : ℤ
  name : Option String
  _mutable : Bool
deriving DecidableEq

/-- The `index` argument of `Zernike.__init__`: a string, an integer, or an
`(n, m)` pair. -/
inductive ZIndex where
  | str (s : String)
  | int (j : ℤ)
  | pair (a b : ℤ)
deriving DecidableEq

/-- The object state at the end of `Zernike.__init__` once `(n, m)` is
known: derived Noll and ANSI indices, the optional canonical name
(`_ansi_names[index_ansi] if index_ansi < len(_ansi_names) else None`), and
`_mutable = False`.  (A negative `index_ansi` never arises for a valid
descriptor.) -/
def zernike_of_nm (a b : ℤ) : Zernike :=
  let ansi := nm_to_ansi a b
  { n := a
    m := b
    index_noll := nm_to_noll a b
    index_ansi := ansi
    name := if ansi < (ansi_names.length : ℤ) then ansi_names[ansi.toNat]? else none
    _mutable := false }

/-- Python `str.lower`, modelled on the character list of the string.
(Lean's own `String.toLower` walks byte positions by well-founded recursion,
which the kernel cannot evaluate; for the ASCII strings appearing here the
two agree.) -/
def str_lower (s : String) : String :=
  ⟨s.data.map Char.toLower⟩

/-- Python `str.isdigit`: non-empty and all characters are digits. -/
def str_isdigit (s : String) : Bool :=
  0 < s.data.length && s.data.all Char.isDigit

/-- Python `int(s)` on a digit string. -/
def str_to_int (s : String) : ℕ :=
  s.data.foldl (fun acc c => 10 * acc + (c.toNat - 48)) 0

/-- The common tail of `Zernike.__init__` after any string index has been
resolved: pair indices are checked against `_nm_pairs`; integer indices are
looked up in the `noll`/`ansi` dictionary selected by `order` (any other
order raises); a string reaching this point is impossible. -/
def mkZernike_resolved (index : ZIndex) (order : String) : Option Zernike :=
  match index with
  | .pair a b => if (a, b) ∈ nm_pairs then some (zernike_of_nm a b) else none
  | .int j =>
      if str_lower order = "noll" then (noll_to_nm j).map fun p => zernike_of_nm p.1 p.2
      else if str_lower order = "ansi" then (ansi_to_nm j).map fun p => zernike_of_nm p.1 p.2
      else none
  | .str _ => none

/-- Source `Zernike.__init__`: a digit string becomes an integer index; any
other string is lowercased and looked up in `_ansi_names` (forcing ANSI
order); unknown names raise. -/
def mkZernike (index : ZIndex) (order : String) : Option Zernike :=
  match index with
  | .str s =>
      if str_isdigit s then
        mkZernike_resolved (.int ((str_to_int s : ℕ) : ℤ)) order
      else if ansi_names.contains (str_lower s) then
        mkZernike_resolved (.int ((ansi_names.indexOf (str_lower s) : ℕ) : ℤ)) "ansi"
      else none
  | idx => mkZernike_resolved idx order

/-- Source `Zernike.__eq__`: equality is comparison of the `(n, m)`
descriptors (the `isinstance` test is vacuous in the typed embedding). -/
def zernike_eq (z1 z2 : Zernike) : Bool :=
  (z1.n, z1.m) == (z2.n, z2.m)

/-- Every successfully constructed `Zernike` object is the canonical object
of some descriptor. -/
theorem mkZernike_resolved_shape {idx : ZIndex} {ord : String} {z : Zernike}
    (h : mkZernike_resolved idx ord = some z) : ∃ a b, z = zernike_of_nm a b := by
  rcases idx with s | j | ⟨a, b⟩
  · exact absurd h (by simp [mkZernike_resolved])
  · simp only [mkZernike_resolved] at h
    split_ifs at h
    all_goals
      obtain ⟨p, _, hz⟩ := Option.map_eq_some'.mp h
      exact ⟨p.1, p.2, hz.symm⟩
  · simp only [mkZernike_resolved] at h
    split_ifs at h
    exact ⟨a, b, (Option.some.inj h).symm⟩

theorem mkZernike_shape {idx : ZIndex} {ord : String} {z : Zernike}
    (h : mkZernike idx ord = some z) : ∃ a b, z = zernike_of_nm a b := by
  rcases idx with s | j | ⟨a, b⟩
  · simp only [mkZernike] at h
    split_ifs at h <;> exact mkZernike_resolved_shape h
  · exact mkZernike_resolved_shape
      (show mkZernike_resolved (.int j) ord = some z from h)
  · exact mkZernike_resolved_shape
      (show mkZernike_resolved (.pair a b) ord = some z from h)

/-- Claim C9: the three construction paths `Zernike(4, order='noll')`,
`Zernike((2, 0))` and `Zernike("defocus")` all produce the mode with
descriptor `n = 2`, `m = 0`; the objects compare equal under the source
`__eq__`, and the canonical name is `"defocus"`. -/
theorem C9_three_paths_defocus :
    mkZernike (.int 4) "noll" = some (zernike_of_nm 2 0) ∧
    mkZernike (.pair 2 0) "noll" = some (zernike_of_nm 2 0) ∧
    mkZernike (.str "defocus") "noll" = some (zernike_of_nm 2 0) ∧
    zernike_eq (zernike_of_nm 2 0) (zernike_of_nm 2 0) = true ∧
    (zernike_of_nm 2 0).n = 2 ∧ (zernike_of_nm 2 0).m = 0 ∧
    (zernike_of_nm 2 0).name = some "defocus" := by
  refine ⟨by decide, by decide, by decide, by decide, rfl, rfl, by decide⟩

/-! ## Wavefronts (source: dict_to_list, class ZernikeWavefront) -/

/-- One insertion step of a stable sort: the new element `a` is placed
before the first list element `b` with `lt a b`, i.e. after every earlier
element not greater than it (Python's `sorted` is stable and uses `__lt__`
only). -/
def py_insert {α : Type} (lt : α → α → Bool) : List α → α → List α
  | [], a => [a]
  | b :: l, a => if lt a b then a :: b :: l else b :: py_insert lt l a

/-- Python `sorted(l)` with comparison `lt` (`__lt__`): a stable sort,
modelled as left-to-right insertion. -/
def py_sorted {α : Type} (lt : α → α → Bool) (l : List α) : List α :=
  l.foldl (py_insert lt) []

theorem mem_py_insert {α : Type} {lt : α → α → Bool} {l : List α} {a x : α}
    (h : x ∈ py_insert lt l a) : x ∈ l ∨ x = a := by
  induction l with
  | nil => simpa [py_insert] using h
  | cons b l ih =>
      unfold py_insert at h
      split_ifs at h
      · rcases List.mem_cons.mp h with rfl | h2
        · exact Or.inr rfl
        · exact Or.inl h2
      · rcases List.mem_cons.mp h with rfl | h2
        · exact Or.inl (List.mem_cons_self _ _)
        · rcases ih h2 with h3 | h3
          · exact Or.inl (List.mem_cons_of_mem _ h3)
          · exact Or.inr h3

theorem py_insert_sorted {α : Type} (key : α → ℤ) (l : List α) (a : α)
    (h : l.Pairwise fun x y => key x ≤ key y) :
    (py_insert (fun x y => key x < key y) l a).Pairwise
      fun x y => key x ≤ key y := by
  induction l with
  | nil => simp [py_insert]
  | cons b l ih =>
      rw [List.pairwise_cons] at h
      unfold py_insert
      split_ifs with hab
      · rw [decide_eq_true_eq] at hab
        refine List.Pairwise.cons ?_ (List.Pairwise.cons h.1 h.2)
        intro x hx
        rcases List.mem_cons.mp hx with rfl | hx2
        · omega
        · have := h.1 x hx2
          omega
      · rw [decide_eq_true_eq] at hab
        refine List.Pairwise.cons ?_ (ih h.2)
        intro x hx
        rcases mem_py_insert hx with hx2 | rfl
        · exact h.1 x hx2
        · omega

theorem py_sorted_sorted {α : Type} (key : α → ℤ) (l : List α) :
    (py_sorted (fun x y => key x < key y) l).Pairwise
      fun x y => key x ≤ key y := by
  suffices hgen : ∀ acc : List α, (acc.Pairwise fun x y => key x ≤ key y) →
      (l.foldl (py_insert fun x y => key x < key y) acc).Pairwise
        fun x y => key x ≤ key y by
    exact hgen [] (by simp)
  induction l with
  | nil => intro acc hacc; simpa using hacc
  | cons a l ih =>
      intro acc hacc
      exact ih _ (py_insert_sorted key acc a hacc)

/-- Source `dict_to_list`: `max(kv.keys())` over an *empty* dictionary
raises (`ValueError: max() arg is an empty sequence`), modelled by `none`;
otherwise `out = [0] * (max_key + 1)` with `out[k] = v` for each entry
(keys are unique and non-negative in every call site). -/
def dict_to_list (kv : List (ℤ × ℝ)) : Option (List ℝ) :=
  match (kv.map Prod.fst).max? with
  | none => none
  | some max_key =>
      some ((List.range (max_key.toNat + 1)).map fun idx =>
        (((kv.find? fun p => p.1 == (idx : ℤ)).map Prod.snd).getD 0))

/-- A constructed `ZernikeWavefront` object: the four attributes set by
`ZernikeWavefront.__init__`. -/
structure ZernikeWavefront where
  zernikes : List (Zernike × ℝ)
  amplitudes_noll : List ℝ
  amplitudes_ansi : List ℝ
  amplitudes_requested : List ℝ

/-- Source `ZernikeWavefront.__init__` on an already-dictionary amplitude
argument (an insertion-ordered association list here): each key is passed to
the `Zernike` constructor, the Noll/ANSI amplitude views are built with
`dict_to_list`, and `amplitudes_requested` tuples the values for the
*sorted* keys, where `Zernike.__lt__` compares ANSI indices. -/
def mkZernikeWavefront (amplitudes : List (ZIndex × ℝ)) (order : String) :
    Option ZernikeWavefront :=
  match amplitudes.mapM fun ja => (mkZernike ja.1 order).map fun z => (z, ja.2) with
  | none => none
  | some zs =>
      match dict_to_list (zs.map fun za => (za.1.index_noll, za.2)),
            dict_to_list (zs.map fun za => (za.1.index_ansi, za.2)) with
      | some noll, some ansi =>
          some { zernikes := zs
                 amplitudes_noll := noll.drop 1
                 amplitudes_ansi := ansi
                 amplitudes_requested :=
                   (py_sorted (fun x y => x.1.index_ansi < y.1.index_ansi) zs).map
                     Prod.snd }
      | _, _ => none

/-- Claim C4 counterexample: constructing a wavefront from the empty
amplitude mapping does *not* succeed: `dict_to_list` takes `max()` of an
empty key set, which raises. -/
theorem C4_counterexample :
    mkZernikeWavefront ([] : List (ZIndex × ℝ)) "noll" = none := rfl

/-- Claim C4 (amended): constructing a `ZernikeWavefront` from an empty
amplitude mapping fails under either nomenclature — the derived Noll/ANSI
amplitude views call `max()` on an empty key sequence, which raises a
`ValueError` — so no zero wavefront is ever produced. -/
theorem C4_empty_mapping_raises :
    mkZernikeWavefront ([] : List (ZIndex × ℝ)) "noll" = none ∧
      mkZernikeWavefront ([] : List (ZIndex × ℝ)) "ansi" = none :=
  ⟨rfl, rfl⟩

/-- The supplied amplitudes of the C5 counterexample: Noll index 4 (defocus,
ANSI 4) first with amplitude 2, then Noll index 1 (piston, ANSI 0) with
amplitude 3. -/
def c5_amplitudes : List (ZIndex × ℝ) := [(.int 4, 2), (.int 1, 3)]

/-- The wavefront object produced from `c5_amplitudes` under Noll order. -/
def c5_wavefront : ZernikeWavefront :=
  { zernikes := [(zernike_of_nm 2 0, 2), (zernike_of_nm 0 0, 3)]
    amplitudes_noll := [3, 0, 0, 2]
    amplitudes_ansi := [3, 0, 0, 0, 2]
    amplitudes_requested := [3, 2] }

theorem c5_mk : mkZernikeWavefront c5_amplitudes "noll" = some c5_wavefront := by rfl

/-- Claim C5 counterexample: amplitudes supplied in the order
`[defocus ↦ 2, piston ↦ 3]` are exposed by `amplitudes_requested` as
`[3, 2]` (sorted by ANSI index), not in the supply order `[2, 3]`. -/
theorem C5_counterexample :
    (mkZernikeWavefront c5_amplitudes "noll").map ZernikeWavefront.amplitudes_requested
        = some [(3 : ℝ), 2] ∧
      (mkZernikeWavefront c5_amplitudes "noll").map ZernikeWavefront.amplitudes_requested
        ≠ some [(2 : ℝ), 3] := by
  refine ⟨by rw [c5_mk]; rfl, fun hc => ?_⟩
  rw [c5_mk] at hc
  have h1 : ([(3 : ℝ), 2] : List ℝ) = [2, 3] := Option.some.inj hc
  have h2 : (3 : ℝ) = 2 := (List.cons.injEq (3 : ℝ) _ 2 _).mp h1 |>.1
  norm_num at h2

/-- Claim C5 (amended): `amplitudes_requested` exposes the amplitudes sorted
by their mode's ANSI index in ascending order (the order induced by
`Zernike.__lt__`), not in the order originally supplied. -/
theorem C5_requested_sorted_by_ansi :
    ∀ (amplitudes : List (ZIndex × ℝ)) (order : String) (w : ZernikeWavefront),
      mkZernikeWavefront amplitudes order = some w →
      w.amplitudes_requested =
          (py_sorted (fun x y => x.1.index_ansi < y.1.index_ansi) w.zernikes).map
            Prod.snd ∧
        List.Pairwise (· ≤ ·)
          ((py_sorted (fun x y => x.1.index_ansi < y.1.index_ansi) w.zernikes).map
            fun za => za.1.index_ansi) := by
  intro amplitudes order w h
  unfold mkZernikeWavefront at h
  rcases hm : amplitudes.mapM fun ja => (mkZernike ja.1 order).map fun z => (z, ja.2)
    with _ | zs <;> rw [hm] at h
  · exact Option.noConfusion h
  dsimp only at h
  rcases hn : dict_to_list (zs.map fun za => (za.1.index_noll, za.2))
    with _ | noll <;> rw [hn] at h
  · exact Option.noConfusion h
  rcases ha : dict_to_list (zs.map fun za => (za.1.index_ansi, za.2))
    with _ | ansi <;> rw [ha] at h
  · exact Option.noConfusion h
  obtain rfl := (Option.some.inj h).symm
  refine ⟨rfl, ?_⟩
  have hp := py_sorted_sorted (fun za : Zernike × ℝ => za.1.index_ansi) zs
  exact List.pairwise_map.mpr hp

/-- Witness for C5 at the concrete two-mode wavefront. -/
theorem C5_witness :
    c5_wavefront.amplitudes_requested =
        (py_sorted (fun x y => x.1.index_ansi < y.1.index_ansi) c5_wavefront.zernikes).map
          Prod.snd ∧
      List.Pairwise (· ≤ ·)
        ((py_sorted (fun x y => x.1.index_ansi < y.1.index_ansi) c5_wavefront.zernikes).map
          fun za => za.1.index_ansi) :=
  C5_requested_sorted_by_ansi c5_amplitudes "noll" c5_wavefront (by rfl)

/-! ## Mutation (source: Zernike.__setattr__; ZernikeWavefront has none) -/

/-- Source `Zernike.__setattr__`: attribute assignment is forwarded to
`object.__setattr__` only while `_mutable` is true; afterwards it raises
`AttributeError('Zernike is immutable')` (the spec's `ImmutabilityError`),
leaving the object unchanged.  An attribute assignment is modelled as a
field update `upd` applied to the object. -/
def zernike_setattr (z : Zernike) (upd : Zernike → Zernike) : Except String Zernike :=
  if z._mutable then .ok (upd z) else .error "Zernike is immutable"

/-- Class `ZernikeWavefront` declares no `__setattr__`, so Python's default
attribute assignment applies: it always succeeds and returns the mutated
object. -/
def wavefront_setattr (w : ZernikeWavefront)
    (upd : ZernikeWavefront → ZernikeWavefront) : Except String ZernikeWavefront :=
  .ok (upd w)

/-- The concrete attribute assignment used in the C6 counterexample:
`w.amplitudes_requested = ()`. -/
def c6_update (w : ZernikeWavefront) : ZernikeWavefront :=
  { w with amplitudes_requested := [] }

/-- Claim C6 counterexample: setting an attribute on a constructed
wavefront raises nothing — it succeeds and visibly changes the object's
state, contradicting the claim that every wavefront mutation fails with
`ImmutabilityError`. -/
theorem C6_counterexample :
    wavefront_setattr c5_wavefront c6_update = Except.ok (c6_update c5_wavefront) ∧
      c6_update c5_wavefront ≠ c5_wavefront := by
  refine ⟨rfl, fun hc => ?_⟩
  have h1 : (c6_update c5_wavefront).amplitudes_requested =
      c5_wavefront.amplitudes_requested := by rw [hc]
  have h2 : ([] : List ℝ) = [3, 2] := h1
  exact List.noConfusion h2

/-- Claim C6 (amended): every constructed `Zernike` object is frozen
(`_mutable = false`), and any attempted attribute assignment on it fails
with the immutability error, leaving no mutated object; a
`ZernikeWavefront`, by contrast, has no `__setattr__` interception, so
attribute assignment on a wavefront always succeeds. -/
theorem C6_zernike_immutable_wavefront_mutable :
    (∀ (idx : ZIndex) (ord : String) (z : Zernike),
        mkZernike idx ord = some z → z._mutable = false) ∧
    (∀ (z : Zernike) (upd : Zernike → Zernike), z._mutable = false →
        zernike_setattr z upd = Except.error "Zernike is immutable") ∧
    (∀ (w : ZernikeWavefront) (upd : ZernikeWavefront → ZernikeWavefront),
        wavefront_setattr w upd = Except.ok (upd w)) := by
  refine ⟨?_, ?_, fun w upd => rfl⟩
  · intro idx ord z h
    obtain ⟨a, b, rfl⟩ := mkZernike_shape h
    rfl
  · intro z upd h
    unfold zernike_setattr
    rw [h]
    rfl

/-- Witness for C6 at the defocus mode and the identity update. -/
theorem C6_witness :
    zernike_setattr (zernike_of_nm 2 0) id = Except.error "Zernike is immutable" :=
  C6_zernike_immutable_wavefront_mutable.2.1 (zernike_of_nm 2 0) id rfl

/-! ## Polynomial evaluation (source: nm_polynomial, rho_theta, outside_mask) -/

/-- The value computed by `nm_polynomial` once the `|m| <= n` guard has
passed: the radial sum over `k = 0 .. (n-|m|)//2`, zeroed outside the unit
disc, the optional normalization prefactor, and the `cos`/`sin` azimuthal
factor selected by the sign of `m`.  All binomials have non-negative
arguments in range, so `Nat.choose` matches `scipy.special.binom`. -/
noncomputable def nm_polynomial_val (zn zm : ℤ) (rho theta : ℝ) (normed : Bool) : ℝ :=
  let rn := zn
  let rm := |zm|
  if (rn - rm) % 2 = 1 then 0 * rho + 0 * theta
  else
    let half := ((rn - rm) / 2).toNat
    let radial : ℝ := ∑ k ∈ Finset.range (half + 1),
      (-1 : ℝ) ^ k * (Nat.choose (rn - k).toNat k : ℝ) *
        (Nat.choose (rn - 2 * k).toNat (half - k) : ℝ) *
        rho ^ (rn - 2 * (k : ℤ)).toNat
    let radial2 := radial * (if rho ≤ 1 then (1 : ℝ) else 0)
    let prefac : ℝ :=
      if normed then
        1 / Real.sqrt ((1 + (if rm = 0 then (1 : ℝ) else 0)) / (2 * (rn : ℝ) + 2)) /
          Real.sqrt Real.pi
      else 1
    if 0 ≤ zm then prefac * radial2 * Real.cos ((rm : ℝ) * theta)
    else prefac * radial2 * Real.sin ((rm : ℝ) * theta)

/-- Source `nm_polynomial`: raises `ValueError` when `|m| > n` (modelled by
`none`), otherwise returns the polynomial value at `(rho, theta)`. -/
noncomputable def nm_polynomial (zn zm : ℤ) (rho theta : ℝ) (normed : Bool) : Option ℝ :=
  if |zm| > zn then none else some (nm_polynomial_val zn zm rho theta normed)

/-- Numpy `linspace(-1, 1, size)` at position `i`: `-1 + 2*i/(size-1)`.  For
`size = 1` numpy returns `[-1]`, which the formula also yields at `i = 0`
(real division by zero is zero in Lean). -/
noncomputable def linspace (size : ℕ) (i : ℕ) : ℝ :=
  -1 + 2 * (i : ℝ) / ((size : ℝ) - 1)

/-- Numpy `hypot`. -/
noncomputable def np_hypot (y x : ℝ) : ℝ :=
  Real.sqrt (y ^ 2 + x ^ 2)

/-- Numpy `arctan2(y, x)`: the angle of the point `(x, y)`, by the standard
case split. -/
noncomputable def np_arctan2 (y x : ℝ) : ℝ :=
  if 0 < x then Real.arctan (y / x)
  else if x < 0 ∧ 0 ≤ y then Real.arctan (y / x) + Real.pi
  else if x < 0 then Real.arctan (y / x) - Real.pi
  else if 0 < y then Real.pi / 2
  else if y < 0 then -(Real.pi / 2)
  else 0

/-- Source `rho_theta(size)` at grid position `(i, j)`: `meshgrid` with
`ij` indexing puts `y = dy[i]` and `x = dx[j]`; `rho = hypot(y, x)` and
`theta = arctan2(y, x)`. -/
noncomputable def rho_theta (size : ℕ) (i j : ℕ) : ℝ × ℝ :=
  (np_hypot (linspace size i) (linspace size j),
   np_arctan2 (linspace size i) (linspace size j))

/-- Source `outside_mask(size)`:
`nm_polynomial(0, 0, rho, theta, normed=False) < 1`.  The descriptor
`(0, 0)` always passes the `|m| <= n` guard, so the comparison applies to
the plain value. -/
noncomputable def outside_mask (size : ℕ) (i j : ℕ) : Prop :=
  nm_polynomial_val 0 0 (rho_theta size i j).1 (rho_theta size i j).2 false < 1

noncomputable instance (size i j : ℕ) : Decidable (outside_mask size i j) := by
  unfold outside_mask
  infer_instance

/-- The unnormalized degree-0 polynomial is the indicator of the unit
disc. -/
theorem nm_polynomial_val_zero (rho theta : ℝ) :
    nm_polynomial_val 0 0 rho theta false = if rho ≤ 1 then 1 else 0 := by
  unfold nm_polynomial_val
  norm_num [Finset.sum_range_one, Real.cos_zero]

/-- Claim C8: for all finite coordinates, the unnormalized degree-0
evaluation `nm_polynomial(0, 0, rho, theta, normed=False)` equals `1`
where `rho <= 1` and `0` elsewhere, and for every grid size `s > 0` the
outside-mask of size `s` holds exactly at the grid points with
`rho > 1`. -/
theorem C8_degree_zero_and_mask :
    (∀ rho theta : ℝ,
      nm_polynomial 0 0 rho theta false = some (if rho ≤ 1 then 1 else 0)) ∧
    (∀ s : ℕ, 0 < s → ∀ i j : ℕ,
      (outside_mask s i j ↔ 1 < (rho_theta s i j).1)) := by
  constructor
  · intro rho theta
    unfold nm_polynomial
    rw [if_neg (by norm_num), nm_polynomial_val_zero]
  · intro s _ i j
    unfold outside_mask
    rw [nm_polynomial_val_zero]
    split_ifs with hle
    · constructor
      · intro h
        norm_num at h
      · intro h
        exact absurd hle (not_le.mpr h)
    · constructor
      · intro _
        exact lt_of_not_le hle
      · intro _
        norm_num

/-- Witness for C8 at `rho = 2` and grid size 1. -/
theorem C8_witness :
    nm_polynomial 0 0 2 0 false = some (if (2 : ℝ) ≤ 1 then 1 else 0) ∧
      (outside_mask 1 0 0 ↔ 1 < (rho_theta 1 0 0).1) :=
  ⟨C8_degree_zero_and_mask.1 2 0, C8_degree_zero_and_mask.2 1 (by norm_num) 0 0⟩

/-! ## Mode and wavefront evaluation
(source: Zernike.polynomial, Zernike.phase, ZernikeWavefront.polynomial,
ZernikeWavefront.phase) -/

/-- A Python list comprehension evaluated left to right, aborting at the
first exception. -/
def option_mapM {α β : Type} (f : α → Option β) : List α → Option (List β)
  | [] => some []
  | a :: l => (f a).bind fun b => (option_mapM f l).map fun bs => b :: bs

/-- Source `Zernike.polynomial` at grid point `(i, j)`: validates
`size > 0` (raises otherwise), evaluates on the cached grid, then
overwrites the outside-disc region with `outside`. -/
noncomputable def zernike_polynomial (z : Zernike) (size : ℕ) (normed : Bool)
    (outside : ℝ) (i j : ℕ) : Option ℝ :=
  if ¬ 0 < size then none
  else
    (nm_polynomial z.n z.m (rho_theta size i j).1 (rho_theta size i j).2 normed).map
      fun ans => if outside_mask size i j then outside else ans

/-- Source `Zernike.phase`: evaluates at caller-supplied coordinates; when
`outside` is given, points where the unnormalized degree-0 polynomial is
`< 1` are overwritten; with `outside=None` no masking happens. -/
noncomputable def zernike_phase (z : Zernike) (rho theta : ℝ) (normed : Bool)
    (outside : Option ℝ) : Option ℝ :=
  (nm_polynomial z.n z.m rho theta normed).map fun ans =>
    match outside with
    | none => ans
    | some c => if nm_polynomial_val 0 0 rho theta false < 1 then c else ans

/-- Source `ZernikeWavefront.polynomial` at grid point `(i, j)`:
`np.sum([a * z.polynomial(size, normed, outside) for z, a in zernikes])` —
each mode is evaluated *with its own outside substitution*, then the
weighted results are summed. -/
noncomputable def wavefront_polynomial (w : ZernikeWavefront) (size : ℕ)
    (normed : Bool) (outside : ℝ) (i j : ℕ) : Option ℝ :=
  (option_mapM (fun za =>
      (zernike_polynomial za.1 size normed outside i j).map fun v => za.2 * v)
    w.zernikes).map
    fun vals => vals.sum

/-- Source `ZernikeWavefront.phase`: the same per-mode-then-sum structure on
caller-supplied coordinates. -/
noncomputable def wavefront_phase (w : ZernikeWavefront) (rho theta : ℝ)
    (normed : Bool) (outside : Option ℝ) : Option ℝ :=
  (option_mapM (fun za =>
      (zernike_phase za.1 rho theta normed outside).map fun v => za.2 * v)
    w.zernikes).map
    fun vals => vals.sum

/-- The alternative reading that the spec rules out, stated from the spec's
words for comparison: evaluate each mode *without* any outside
substitution, sum the weighted modes, and apply the outside substitution
once to the sum. -/
noncomputable def wavefront_polynomial_mask_after_sum (w : ZernikeWavefront)
    (size : ℕ) (normed : Bool) (outside : ℝ) (i j : ℕ) : Option ℝ :=
  if ¬ 0 < size then none
  else
    (option_mapM (fun za =>
        (nm_polynomial za.1.n za.1.m (rho_theta size i j).1 (rho_theta size i j).2
          normed).map fun v => za.2 * v)
      w.zernikes).map
      fun vals => if outside_mask size i j then outside else vals.sum

/-- Summing a comprehension in which every item succeeds. -/
theorem option_mapM_sum {α : Type} {l : List α} {F : α → Option ℝ} {G : α → ℝ}
    (h : ∀ a ∈ l, F a = some (G a)) :
    (option_mapM F l).map (fun vals => vals.sum) = some ((l.map G).sum) := by
  induction l with
  | nil => rfl
  | cons a l ih =>
      have ha := h a (List.mem_cons_self a l)
      have ih2 := ih fun b hb => h b (List.mem_cons_of_mem a hb)
      unfold option_mapM
      rw [ha]
      cases hm : option_mapM F l with
      | none => rw [hm] at ih2; exact Option.noConfusion ih2
      | some bs =>
          rw [hm] at ih2
          have hsum : bs.sum = (l.map G).sum := Option.some.inj ih2
          simp [List.sum_cons, hsum]

/-- A valid mode's grid evaluation never raises and equals the per-mode
masked value. -/
theorem zernike_polynomial_valid {z : Zernike} (hz : |z.m| ≤ z.n) {size : ℕ}
    (hs : 0 < size) (normed : Bool) (outside : ℝ) (i j : ℕ) :
    zernike_polynomial z size normed outside i j =
      some (if outside_mask size i j then outside
        else nm_polynomial_val z.n z.m (rho_theta size i j).1
          (rho_theta size i j).2 normed) := by
  unfold zernike_polynomial nm_polynomial
  rw [if_neg (not_not_intro hs), if_neg (not_lt.mpr hz)]
  rfl

/-- A valid mode's phase evaluation with an outside value. -/
theorem zernike_phase_valid {z : Zernike} (hz : |z.m| ≤ z.n) (rho theta : ℝ)
    (normed : Bool) (c : ℝ) :
    zernike_phase z rho theta normed (some c) =
      some (if nm_polynomial_val 0 0 rho theta false < 1 then c
        else nm_polynomial_val z.n z.m rho theta normed) := by
  unfold zernike_phase nm_polynomial
  rw [if_neg (not_lt.mpr hz)]
  rfl

/-- A single piston mode of amplitude 2: the wavefront used in the C3
counter-instance. -/
def c3_wavefront : ZernikeWavefront :=
  { zernikes := [(zernike_of_nm 0 0, 2)]
    amplitudes_noll := [2]
    amplitudes_ansi := [2]
    amplitudes_requested := [2] }

theorem c3_mk : mkZernikeWavefront [(.pair 0 0, 2)] "ansi" = some c3_wavefront := by rfl

/-- Claim C3: for every wavefront with at least one mode, positive grid
size, normalization flag and outside value, `ZernikeWavefront.polynomial`
equals the sum over its modes of amplitude times the per-mode polynomial
with the outside substitution already applied to that mode individually
(likewise `ZernikeWavefront.phase`); substituting once after the sum is a
different function, witnessed at a piston wavefront of amplitude 2 with
outside value 1 at an outside-disc grid corner. -/
theorem option_mapM_singleton {α β : Type} (f : α → Option β) (a : α) :
    option_mapM f [a] = (f a).map fun b => [b] := by
  cases h : f a <;> simp [option_mapM, h]

theorem C3_outside_substitution_per_mode :
    (∀ (w : ZernikeWavefront) (size : ℕ) (normed : Bool) (outside : ℝ) (i j : ℕ),
      1 ≤ w.zernikes.length → 0 < size →
      (∀ za ∈ w.zernikes, |za.1.m| ≤ za.1.n) →
      wavefront_polynomial w size normed outside i j =
        some ((w.zernikes.map fun za =>
          za.2 * (if outside_mask size i j then outside
            else nm_polynomial_val za.1.n za.1.m (rho_theta size i j).1
              (rho_theta size i j).2 normed)).sum)) ∧
    (∀ (w : ZernikeWavefront) (rho theta : ℝ) (normed : Bool) (c : ℝ),
      (∀ za ∈ w.zernikes, |za.1.m| ≤ za.1.n) →
      wavefront_phase w rho theta normed (some c) =
        some ((w.zernikes.map fun za =>
          za.2 * (if nm_polynomial_val 0 0 rho theta false < 1 then c
            else nm_polynomial_val za.1.n za.1.m rho theta normed)).sum)) ∧
    wavefront_polynomial c3_wavefront 2 false 1 0 0 ≠
      wavefront_polynomial_mask_after_sum c3_wavefront 2 false 1 0 0 := by
  have hrho : (rho_theta 2 0 0).1 = Real.sqrt 2 := by
    unfold rho_theta np_hypot linspace
    norm_num
  have hsqrt2 : (1 : ℝ) < Real.sqrt 2 :=
    (Real.lt_sqrt (by norm_num)).mpr (by norm_num)
  have hnotle : ¬ Real.sqrt 2 ≤ 1 := not_le.mpr hsqrt2
  have hmask : outside_mask 2 0 0 := by
    unfold outside_mask
    rw [nm_polynomial_val_zero, hrho, if_neg hnotle]
    norm_num
  have hpart1 : ∀ (w : ZernikeWavefront) (size : ℕ) (normed : Bool)
      (outside : ℝ) (i j : ℕ),
      1 ≤ w.zernikes.length → 0 < size →
      (∀ za ∈ w.zernikes, |za.1.m| ≤ za.1.n) →
      wavefront_polynomial w size normed outside i j =
        some ((w.zernikes.map fun za =>
          za.2 * (if outside_mask size i j then outside
            else nm_polynomial_val za.1.n za.1.m (rho_theta size i j).1
              (rho_theta size i j).2 normed)).sum) := by
    intro w size normed outside i j _ hs hvalid
    unfold wavefront_polynomial
    exact option_mapM_sum fun za hza => by
      rw [zernike_polynomial_valid (hvalid za hza) hs normed outside i j]
      rfl
  refine ⟨hpart1, ?_, ?_⟩
  · intro w rho theta normed c hvalid
    unfold wavefront_phase
    exact option_mapM_sum fun za hza => by
      rw [zernike_phase_valid (hvalid za hza) rho theta normed c]
      rfl
  · have hL : wavefront_polynomial c3_wavefront 2 false 1 0 0 = some 2 := by
      rw [hpart1 c3_wavefront 2 false 1 0 0 (by decide) (by norm_num) (by decide)]
      show some ((c3_wavefront.zernikes.map fun za =>
        za.2 * (if outside_mask 2 0 0 then 1
          else nm_polynomial_val za.1.n za.1.m (rho_theta 2 0 0).1
            (rho_theta 2 0 0).2 false)).sum) = some 2
      unfold c3_wavefront
      dsimp only [List.map, List.sum_cons, List.sum_nil]
      rw [if_pos hmask]
      norm_num
    have hnm : nm_polynomial (zernike_of_nm 0 0).n (zernike_of_nm 0 0).m
        (rho_theta 2 0 0).1 (rho_theta 2 0 0).2 false = some 0 := by
      unfold nm_polynomial
      rw [if_neg (by decide), show (zernike_of_nm 0 0).n = 0 from rfl,
        show (zernike_of_nm 0 0).m = 0 from rfl,
        nm_polynomial_val_zero, hrho, if_neg hnotle]
    have hR : wavefront_polynomial_mask_after_sum c3_wavefront 2 false 1 0 0
        = some 1 := by
      unfold wavefront_polynomial_mask_after_sum c3_wavefront
      rw [if_neg (not_not_intro (by norm_num : (0 : ℕ) < 2)),
        option_mapM_singleton]
      dsimp only
      rw [hnm]
      dsimp only [Option.map_some']
      rw [if_pos hmask]
    rw [hL, hR]
    intro hc
    have h21 : (2 : ℝ) = 1 := Option.some.inj hc
    norm_num at h21

/-- Witness for C3 at the piston wavefront, grid size 2, outside value 1,
grid corner `(0, 0)`. -/
theorem C3_witness :
    wavefront_polynomial c3_wavefront 2 false 1 0 0 =
      some ((c3_wavefront.zernikes.map fun za =>
        za.2 * (if outside_mask 2 0 0 then 1
          else nm_polynomial_val za.1.n za.1.m (rho_theta 2 0 0).1
            (rho_theta 2 0 0).2 false)).sum) :=
  C3_outside_substitution_per_mode.1 c3_wavefront 2 false 1 0 0 (by decide)
    (by norm_num) (by decide)

/-! ## PSF generator (source: class PsfGenerator3D) -/

/-- The constructor parameters of `PsfGenerator3D` (shape `(nz, ny, nx)`,
voxel sizes `(dz, dy, dx)`, wavelength, refractive index, numerical
aperture, and the two switches). -/
structure PsfGenerator3D where
  nz : ℕ
  ny : ℕ
  nx : ℕ
  dz : ℝ
  dy : ℝ
  dx : ℝ
  lam_detection : ℝ
  n : ℝ
  na_detection : ℝ
  masked : Bool
  switch : Bool

/-- Numpy `fft.fftfreq(sz, d)` at index `i`: `i/(d*sz)` for
`i <= (sz-1)//2`, else `(i-sz)/(d*sz)`. -/
noncomputable def np_fftfreq (sz : ℕ) (d : ℝ) (i : ℕ) : ℝ :=
  if (i : ℤ) ≤ ((sz : ℤ) - 1) / 2 then (i : ℝ) / (d * sz)
  else ((i : ℝ) - sz) / (d * sz)

/-- Numpy `fft.fftshift` on one axis of length `sz`: a cyclic roll by
`sz // 2`, so position `i` reads from `(i - sz//2) mod sz`. -/
def fftshift_idx (sz i : ℕ) : ℕ :=
  (i + sz - sz / 2) % sz

/-- Source `ky = fftshift(fftfreq(ny, dy))`. -/
noncomputable def psf_ky (g : PsfGenerator3D) (i : ℕ) : ℝ :=
  np_fftfreq g.ny g.dy (fftshift_idx g.ny i)

/-- Source `kx = fftshift(fftfreq(nx, dx))`. -/
noncomputable def psf_kx (g : PsfGenerator3D) (i : ℕ) : ℝ :=
  np_fftfreq g.nx g.dx (fftshift_idx g.nx i)

/-- Source `z`: `dz * (arange(nz) - (nz - 1)/2)` for even `nz` (true
division), `dz * (arange(nz) - nz//2)` for odd `nz` (floor division). -/
noncomputable def psf_z (g : PsfGenerator3D) (iz : ℕ) : ℝ :=
  if g.nz % 2 = 0 then g.dz * ((iz : ℝ) - ((g.nz : ℝ) - 1) / 2)
  else g.dz * ((iz : ℝ) - (g.nz / 2 : ℕ))

/-- Source `k_cut = 1. * na_detection / lam_detection`. -/
noncomputable def k_cut (g : PsfGenerator3D) : ℝ :=
  1 * g.na_detection / g.lam_detection

/-- Source `kr3 = np.sqrt(ky3 ** 2 + kx3 ** 2)` (constant along `z`). -/
noncomputable def kr3 (g : PsfGenerator3D) (iy ix : ℕ) : ℝ :=
  Real.sqrt (psf_ky g iy ^ 2 + psf_kx g ix ^ 2)

/-- Source `h = np.sqrt(1. * n ** 2 - kr3 ** 2 * lam ** 2)`: `np.sqrt` of a
negative radicand is NaN, modelled as `none`. -/
noncomputable def psf_h (g : PsfGenerator3D) (iy ix : ℕ) : Option ℝ :=
  if 1 * g.n ^ 2 - kr3 g iy ix ^ 2 * g.lam_detection ^ 2 < 0 then none
  else some (Real.sqrt (1 * g.n ^ 2 - kr3 g iy ix ^ 2 * g.lam_detection ^ 2))

/-- Source `k_prop = np.exp(-2j * pi * kz3 / lam * h)` followed by
`k_prop[np.isnan(h)] = 0`: the defocus transfer stack, with every
evanescent (NaN) entry replaced by `0`, so the stack is a total
complex-valued array with no NaN left. -/
noncomputable def k_prop (g : PsfGenerator3D) (iz iy ix : ℕ) : ℂ :=
  match psf_h g iy ix with
  | none => 0
  | some hv =>
      Complex.exp (-2 * Complex.I * Real.pi * (psf_z g iz) / g.lam_detection * hv)

/-- Source `k_base`: the pupil mask `kr3 < k_cut` (as a 0/1 factor) is
applied to the defocus stack when the constructor flag `masked` is set. -/
noncomputable def k_base (g : PsfGenerator3D) (iz iy ix : ℕ) : ℂ :=
  if g.masked then
    (if kr3 g iy ix < k_cut g then 1 else 0) * k_prop g iz iy ix
  else k_prop g iz iy ix

/-- Source `kr2 = np.hypot(ky2, kx2)`. -/
noncomputable def kr2 (g : PsfGenerator3D) (iy ix : ℕ) : ℝ :=
  np_hypot (psf_ky g iy) (psf_kx g ix)

/-- Source `k_rho`: `kr2 / k_cut` when `switch` rescaling is on, else
`kr2`. -/
noncomputable def k_rho (g : PsfGenerator3D) (iy ix : ℕ) : ℝ :=
  if g.switch then kr2 g iy ix / k_cut g else kr2 g iy ix

/-- Source `k_phi = np.arctan2(ky2, kx2)`. -/
noncomputable def k_phi (g : PsfGenerator3D) (iy ix : ℕ) : ℝ :=
  np_arctan2 (psf_ky g iy) (psf_kx g ix)

/-- Source `PsfGenerator3D.masked_phase`: the wavefront phase on the
aberration-plane polar grid, multiplied by the 0/1 pupil mask
`kr2 < k_cut` when the *argument* `masked` is set. -/
noncomputable def masked_phase (g : PsfGenerator3D) (w : ZernikeWavefront)
    (normed masked : Bool) (iy ix : ℕ) : Option ℝ :=
  if masked then
    (wavefront_phase w (k_rho g iy ix) (k_phi g iy ix) normed none).map
      fun p => (if kr2 g iy ix < k_cut g then 1 else 0) * p
  else wavefront_phase w (k_rho g iy ix) (k_phi g iy ix) normed none

/-- Source `ku = k_base * np.exp(2j * pi * phi / lam)`. -/
noncomputable def psf_ku (g : PsfGenerator3D) (w : ZernikeWavefront)
    (normed masked : Bool) (iz iy ix : ℕ) : Option ℂ :=
  (masked_phase g w normed masked iy ix).map fun (p : ℝ) =>
    k_base g iz iy ix *
      Complex.exp (2 * Complex.I * Real.pi * (p : ℂ) / (g.lam_detection : ℂ))

/-- Source `my_ifftn = lambda x: np.fft.ifftn(x, axes=(1, 2))` applied to
`ku`, written as the explicit inverse DFT over the two lateral axes:
`out[iz, iy, ix] = (1/(ny*nx)) * sum_{jy, jx} ku[iz, jy, jx] *
exp(2j*pi*(iy*jy/ny + ix*jx/nx))`. -/
noncomputable def coherent_psf (g : PsfGenerator3D) (w : ZernikeWavefront)
    (normed masked : Bool) (iz iy ix : ℕ) : Option ℂ :=
  (option_mapM (fun jy =>
      (option_mapM (fun jx =>
          (psf_ku g w normed masked iz jy jx).map fun v =>
            v * Complex.exp (2 * Real.pi * Complex.I *
              (((iy * jy : ℕ) : ℂ) / (g.ny : ℂ) + ((ix * jx : ℕ) : ℂ) / (g.nx : ℂ))))
        (List.range g.nx)).map fun row => row.sum)
    (List.range g.ny)).map
    fun rows => rows.sum / ((g.ny : ℂ) * (g.nx : ℂ))

/-- Source `my_ifftshift = lambda x: np.fft.fftshift(x, axes=(1, 2))`:
despite its name this is `fftshift` — a roll by half the axis length on
each of the two lateral axes (`fftshift` and `ifftshift` coincide on even
lengths). -/
def my_ifftshift {α : Type} (g : PsfGenerator3D) (x : ℕ → ℕ → ℕ → α) :
    ℕ → ℕ → ℕ → α :=
  fun iz iy ix => x iz (fftshift_idx g.ny iy) (fftshift_idx g.nx ix)

/-- Source `PsfGenerator3D.incoherent_psf`: the centering shift applied to
the coherent field — the literal code returns this shifted *complex*
field, with no squared magnitude taken. -/
noncomputable def incoherent_psf (g : PsfGenerator3D) (w : ZernikeWavefront)
    (normed masked : Bool) : ℕ → ℕ → ℕ → Option ℂ :=
  my_ifftshift g (coherent_psf g w normed masked)

/-- Source `PsfGenerator3D.incoherent_psf_abs`: squared absolute value of
the coherent field, then the same centering shift. -/
noncomputable def incoherent_psf_abs (g : PsfGenerator3D) (w : ZernikeWavefront)
    (normed masked : Bool) : ℕ → ℕ → ℕ → Option ℝ :=
  my_ifftshift g fun iz iy ix =>
    (coherent_psf g w normed masked iz iy ix).map fun c => Complex.abs c ^ 2

/-- Claim C7: for every propagator construction and every stack position,
the defocus transfer entry is `0` where the radicand
`n^2 - (kx^2 + ky^2)*lam^2` is negative and
`exp(-2*pi*i*z/lam*sqrt(n^2 - (kx^2 + ky^2)*lam^2))` otherwise; in
particular the final stack is total (no NaN entry survives the
substitution). -/
theorem C7_defocus_stack_entries :
    ∀ (g : PsfGenerator3D) (iz iy ix : ℕ),
      k_prop g iz iy ix =
        if g.n ^ 2 - (psf_kx g ix ^ 2 + psf_ky g iy ^ 2) * g.lam_detection ^ 2 < 0
        then 0
        else Complex.exp (-2 * Real.pi * Complex.I * (psf_z g iz) / g.lam_detection *
          Real.sqrt (g.n ^ 2 -
            (psf_kx g ix ^ 2 + psf_ky g iy ^ 2) * g.lam_detection ^ 2)) := by
  intro g iz iy ix
  have hsq : kr3 g iy ix ^ 2 = psf_ky g iy ^ 2 + psf_kx g ix ^ 2 :=
    Real.sq_sqrt (by positivity)
  have hrad : 1 * g.n ^ 2 - kr3 g iy ix ^ 2 * g.lam_detection ^ 2 =
      g.n ^ 2 - (psf_kx g ix ^ 2 + psf_ky g iy ^ 2) * g.lam_detection ^ 2 := by
    rw [hsq]
    ring
  unfold k_prop psf_h
  rw [hrad]
  split_ifs with h
  · rfl
  · push_cast
    ring_nf

/-- A minimal propagator: shape `(1, 1, 1)`, unit voxels, `lam = n = na = 1`,
both switches at their defaults. -/
def psf_example : PsfGenerator3D :=
  { nz := 1, ny := 1, nx := 1, dz := 1, dy := 1, dx := 1,
    lam_detection := 1, n := 1, na_detection := 1, masked := true, switch := true }

/-- A wavefront of a single piston mode with amplitude `1/4` (a quarter
wave), giving a coherent field `exp(i*pi/2) = i` on the 1-pixel grid. -/
noncomputable def piston_quarter : ZernikeWavefront :=
  { zernikes := [(zernike_of_nm 0 0, 1 / 4)]
    amplitudes_noll := [1 / 4]
    amplitudes_ansi := [1 / 4]
    amplitudes_requested := [1 / 4] }

theorem piston_quarter_mk :
    mkZernikeWavefront [(.pair 0 0, (1 / 4 : ℝ))] "ansi" = some piston_quarter := by
  rfl

theorem psf_example_value :
    coherent_psf psf_example piston_quarter false true 0 0 0 = some Complex.I := by
  have hky : psf_ky psf_example 0 = 0 := by
    norm_num [psf_ky, psf_example, np_fftfreq, fftshift_idx]
  have hkx : psf_kx psf_example 0 = 0 := by
    norm_num [psf_kx, psf_example, np_fftfreq, fftshift_idx]
  have hkr2 : kr2 psf_example 0 0 = 0 := by
    norm_num [kr2, np_hypot, hky, hkx, Real.sqrt_zero]
  have hkcut : k_cut psf_example = 1 := by
    norm_num [k_cut, psf_example]
  have hkrho : k_rho psf_example 0 0 = 0 := by
    unfold k_rho
    rw [if_pos (show psf_example.switch = true from rfl), hkr2, hkcut]
    norm_num
  have hkphi : k_phi psf_example 0 0 = 0 := by
    simp only [k_phi, np_arctan2, hky, hkx]
    norm_num
  have hphase : wavefront_phase piston_quarter 0 0 false none = some (1 / 4) := by
    have hz : zernike_phase (zernike_of_nm 0 0) 0 0 false none = some 1 := by
      unfold zernike_phase nm_polynomial
      rw [if_neg (by decide), show (zernike_of_nm 0 0).n = 0 from rfl,
        show (zernike_of_nm 0 0).m = 0 from rfl, nm_polynomial_val_zero]
      norm_num
    unfold wavefront_phase piston_quarter
    rw [option_mapM_singleton]
    dsimp only
    rw [hz]
    dsimp only [Option.map_some']
    norm_num
  have hmasked : masked_phase psf_example piston_quarter false true 0 0
      = some (1 / 4) := by
    unfold masked_phase
    rw [if_pos rfl, hkrho, hkphi, hphase, hkr2, hkcut]
    dsimp only [Option.map_some']
    norm_num
  have hz0 : psf_z psf_example 0 = 0 := by
    norm_num [psf_z, psf_example]
  have hkr3 : kr3 psf_example 0 0 = 0 := by
    norm_num [kr3, hky, hkx, Real.sqrt_zero]
  have hh : psf_h psf_example 0 0 = some 1 := by
    unfold psf_h
    rw [hkr3]
    norm_num [psf_example, Real.sqrt_one]
  have hkprop : k_prop psf_example 0 0 0 = 1 := by
    unfold k_prop
    rw [hh, hz0]
    norm_num [Complex.exp_zero]
  have hkbase : k_base psf_example 0 0 0 = 1 := by
    unfold k_base
    rw [if_pos (show psf_example.masked = true from rfl), hkr3, hkcut, hkprop]
    norm_num
  have hku : psf_ku psf_example piston_quarter false true 0 0 0
      = some (Complex.exp ((Real.pi / 2 : ℝ) * Complex.I)) := by
    unfold psf_ku
    rw [hmasked, hkbase]
    simp only [Option.map_some']
    congr 1
    rw [one_mul]
    congr 1
    show 2 * Complex.I * (Real.pi : ℂ) * ((1 / 4 : ℝ) : ℂ) /
        ((1 : ℝ) : ℂ) = ((Real.pi / 2 : ℝ) : ℂ) * Complex.I
    push_cast
    ring
  have hpi : Complex.exp (((Real.pi / 2 : ℝ) : ℂ) * Complex.I) = Complex.I := by
    rw [Complex.exp_mul_I]
    push_cast
    rw [Complex.cos_pi_div_two, Complex.sin_pi_div_two]
    ring
  unfold coherent_psf
  simp only [show psf_example.ny = 1 from rfl, show psf_example.nx = 1 from rfl,
    show List.range 1 = [0] from rfl, option_mapM_singleton, hku,
    Option.map_some', Option.map_id', List.sum_cons, List.sum_nil, Nat.mul_zero,
    Nat.zero_mul, Nat.cast_zero, zero_div, add_zero, mul_zero, Complex.exp_zero,
    mul_one, Nat.cast_one, div_one, hpi]

/-- Claim C1: for every wavefront and both flag choices, `incoherent_psf`
is the per-z-slice centering shift (a roll by half of each lateral axis)
applied to the coherent field, returned as a complex field; at the
1-voxel example with a quarter-wave piston the returned entry is the
unit-modulus complex number `i`, not its squared magnitude `1`. -/
theorem C1_incoherent_psf_shifted_complex_field :
    (∀ (g : PsfGenerator3D) (w : ZernikeWavefront) (normed masked : Bool)
        (iz iy ix : ℕ),
      incoherent_psf g w normed masked iz iy ix =
        coherent_psf g w normed masked iz ((iy + g.ny - g.ny / 2) % g.ny)
          ((ix + g.nx - g.nx / 2) % g.nx)) ∧
    incoherent_psf psf_example piston_quarter false true 0 0 0 = some Complex.I ∧
    (Complex.I : ℂ) ≠ ((Complex.abs Complex.I ^ 2 : ℝ) : ℂ) := by
  refine ⟨fun g w normed masked iz iy ix => rfl, ?_, ?_⟩
  · show coherent_psf psf_example piston_quarter false true 0
      (fftshift_idx 1 0) (fftshift_idx 1 0) = some Complex.I
    exact psf_example_value
  · intro hc
    have him := congrArg Complex.im hc
    rw [Complex.I_im, Complex.ofReal_im] at him
    norm_num at him

/-- Claim C10: `incoherent_psf_abs` is the elementwise squared absolute
value of `incoherent_psf`: both apply the same per-z-slice centering shift,
and an index shift commutes with the pointwise squared magnitude. -/
theorem C10_incoherent_abs_is_squared_magnitude :
    ∀ (g : PsfGenerator3D) (w : ZernikeWavefront) (normed masked : Bool)
      (iz iy ix : ℕ),
      incoherent_psf_abs g w normed masked iz iy ix =
        (incoherent_psf g w normed masked iz iy ix).map fun c =>
          Complex.abs c ^ 2 :=
  fun _ _ _ _ _ _ _ => rfl
